import Mathlib

/-!
Verification of the WaniKani level-60 predictor (prediction and simulation
engine). The repository consists of four evolving variants of one
single-file web application; the core logic embedded here comprises:

* the review-window scheduler (nextWindow) with daily windows at 9:00 and
  18:00,
* the SRS ladder simulator (simulateToGuru) over the fixed interval table,
* run segmentation, under the run-start-marker policy (getCurrentRunStart)
  and the latest-attempt-per-level policy (getLatestRun),
* pace statistics (computeStats),
* the next-level-up forecast (computeNextLevel),
* the speedup decomposition (computeSpeedup variants) and the
  level-completion forecast (updatePrediction core).

Instants are modelled as integer milliseconds (the value of a JS Date),
with civil days of exactly 24 hours (no DST), so that setDate/setHours
arithmetic becomes arithmetic modulo the day length. Durations in days and
all derived statistics are exact rationals; the JS float constants used by
the source (0.25, 0.75, 0.5, 0.1 on list lengths; 20.5; 3.42; 0.4) are
exactly representable or floor-exact at these magnitudes, so rational
arithmetic matches the float computation on the modelled domain.
-/

namespace WK

/-! ### Time constants and the window scheduler (src/app.js lines 7, 35-49) -/

def msPerHour : ℕ := 3600000

def msPerDay : ℕ := 86400000

/-- The fixed daily review windows, in 24h clock hours: 9am and 6pm. -/
def reviewWindows : List ℕ := [9, 18]

/-- The candidate instants scanned by nextWindow: for each day offset
0..14, the configured clock hours of that day, in chronological order.
Mirrors the double loop in nextWindow: the outer loop copies the input
date and advances it by dayOffset days, the inner loop sets the clock
hour with minutes, seconds and milliseconds zeroed. -/
def windowCandidates (t : ℕ) : List ℕ :=
  (List.range 15).flatMap fun dayOffset =>
    reviewWindows.map fun h => (t / msPerDay) * msPerDay + dayOffset * msPerDay + h * msPerHour

/-- nextWindow (src/app.js lines 35-49): the first candidate strictly
greater than the input, falling back to the input itself when the 15-day
scan finds none. -/
def nextWindow (t : ℕ) : ℕ :=
  ((windowCandidates t).find? fun c => t < c).getD t

/-- An instant lying exactly on one of the daily review windows:
9:00:00.000 or 18:00:00.000. -/
def IsWindowMark (s : ℕ) : Prop :=
  s % msPerDay = 9 * msPerHour ∨ s % msPerDay = 18 * msPerHour

instance (s : ℕ) : Decidable (IsWindowMark s) :=
  inferInstanceAs (Decidable (_ ∨ _))

theorem windowCandidates_eq (t : ℕ) :
    windowCandidates t =
      ((t / msPerDay) * msPerDay + 9 * msPerHour) ::
      ((t / msPerDay) * msPerDay + 18 * msPerHour) ::
      ((t / msPerDay) * msPerDay + msPerDay + 9 * msPerHour) ::
      (((t / msPerDay) * msPerDay + msPerDay + 18 * msPerHour) ::
        (List.range 13).flatMap fun dayOffset =>
          reviewWindows.map fun h =>
            (t / msPerDay) * msPerDay + (dayOffset + 2) * msPerDay + h * msPerHour) := by
  have h15 : List.range 15 = 0 :: 1 :: List.map (· + 2) (List.range 13) := by decide
  simp only [windowCandidates, h15, List.flatMap_cons, List.flatMap_map, reviewWindows,
    List.map_cons, List.map_nil, List.cons_append, List.nil_append]
  norm_num

/-- Closed form of nextWindow by position of the input within its day. -/
theorem nextWindow_closed (t : ℕ) :
    nextWindow t =
      if t % msPerDay < 9 * msPerHour then t - t % msPerDay + 9 * msPerHour
      else if t % msPerDay < 18 * msPerHour then t - t % msPerDay + 18 * msPerHour
      else t - t % msPerDay + msPerDay + 9 * msPerHour := by
  rw [nextWindow, windowCandidates_eq]
  simp only [msPerDay, msPerHour]
  by_cases h9 : t % 86400000 < 9 * 3600000
  · rw [List.find?_cons_of_pos _ (by simp only [decide_eq_true_eq]; omega)]
    rw [if_pos h9, Option.getD_some]
    omega
  · rw [List.find?_cons_of_neg _ (by simp only [decide_eq_true_eq]; omega)]
    by_cases h18 : t % 86400000 < 18 * 3600000
    · rw [List.find?_cons_of_pos _ (by simp only [decide_eq_true_eq]; omega)]
      rw [if_neg h9, if_pos h18, Option.getD_some]
      omega
    · rw [List.find?_cons_of_neg _ (by simp only [decide_eq_true_eq]; omega)]
      rw [List.find?_cons_of_pos _ (by simp only [decide_eq_true_eq]; omega)]
      rw [if_neg h9, if_neg h18, Option.getD_some]
      omega

/-- C1: for every input instant t, nextWindow t is strictly greater than
t, falls exactly on one of the configured daily clock hours (9:00 or
18:00), and is the earliest such instant: every window mark strictly
greater than t is at or after nextWindow t. -/
theorem nextWindow_spec (t : ℕ) :
    t < nextWindow t ∧ IsWindowMark (nextWindow t) ∧
      ∀ s, IsWindowMark s → t < s → nextWindow t ≤ s := by
  rw [nextWindow_closed]
  have hmod : t % msPerDay < msPerDay := Nat.mod_lt _ (by decide)
  refine ⟨?_, ?_, ?_⟩
  · split_ifs <;> simp only [msPerDay, msPerHour] at * <;> omega
  · split_ifs with h9 h18 <;> simp only [IsWindowMark, msPerDay, msPerHour] at * <;> omega
  · intro s hs hts
    rcases hs with hs | hs <;> split_ifs with h9 h18 <;>
      simp only [msPerDay, msPerHour] at * <;> omega

/-- Witness for C1 at 10:00 of day 0 (t = 36000000 ms): the next window is
18:00 of day 0 (64800000 ms), which is also minimal among marks after t. -/
theorem nextWindow_spec_witness :
    36000000 < nextWindow 36000000 ∧ IsWindowMark (nextWindow 36000000) ∧
      nextWindow 36000000 ≤ 64800000 :=
  ⟨(nextWindow_spec 36000000).1, (nextWindow_spec 36000000).2.1,
    (nextWindow_spec 36000000).2.2 64800000 (by decide) (by decide)⟩

/-! ### SRS intervals and the ladder simulator (src/app.js lines 31, 53-65) -/

/-- Hours to next review per SRS stage (stage 0 = Apprentice 1). -/
def srsIntervalsH : List ℕ := [4, 8, 23, 47, 167, 335, 719, 2879]

/-- One simulateToGuru loop body per fuel unit. The while loop runs while
stage < 4; each iteration advances reviewDate to the next window after the
interval for the current stage elapses, and increments the stage. Four
fuel units always suffice because the stage strictly increases and the
loop exits at stage 4, so this structural version is extensionally the
unbounded while loop of the source. Returns the final review date and the
number of loop iterations performed. -/
def simGuruAux : ℕ → ℕ → ℕ → ℕ × ℕ
  | 0, reviewDate, _ => (reviewDate, 0)
  | fuel + 1, reviewDate, stage =>
    if stage < 4 then
      let availableAt := reviewDate + (srsIntervalsH.getD stage 0) * msPerHour
      let r := simGuruAux fuel (nextWindow availableAt) (stage + 1)
      (r.1, r.2 + 1)
    else (reviewDate, 0)

/-- simulateToGuru (src/app.js lines 53-65): the instant an item starting
at the given stage reaches Guru (stage 4) under window-based reviews. -/
def simulateToGuru (startDate : ℕ) (currentStage : ℕ) : ℕ :=
  (simGuruAux 4 startDate currentStage).1

/-- Number of loop iterations simulateToGuru performs. -/
def simulateToGuruIters (startDate : ℕ) (currentStage : ℕ) : ℕ :=
  (simGuruAux 4 startDate currentStage).2

theorem simGuruAux_iters (fuel : ℕ) :
    ∀ d stage, 4 - stage ≤ fuel → (simGuruAux fuel d stage).2 = 4 - stage := by
  induction fuel with
  | zero => intro d stage h; simp only [simGuruAux]; omega
  | succ n ih =>
    intro d stage h
    by_cases hs : stage < 4
    · simp only [simGuruAux, if_pos hs]
      rw [ih _ (stage + 1) (by omega)]
      omega
    · simp only [simGuruAux, if_neg hs]
      omega

/-- C2: simulateToGuru performs exactly 4 - s loop iterations from stage s
(so masteryStageIndex - s of them when s < 4, and zero when s ≥ 4, since
ℕ subtraction truncates), and when s ≥ 4 it returns the starting instant
unchanged. -/
theorem simulateToGuru_iterations (d s : ℕ) :
    simulateToGuruIters d s = 4 - s ∧ (4 ≤ s → simulateToGuru d s = d) := by
  constructor
  · exact simGuruAux_iters 4 d s (by omega)
  · intro h
    simp only [simulateToGuru, simGuruAux, if_neg (by omega : ¬ s < 4)]

/-- Witness for C2: from stage 1 the loop runs 4 - 1 = 3 times; from stage
4 it runs zero times and returns the start instant unchanged. -/
theorem simulateToGuru_iterations_witness :
    simulateToGuruIters 0 1 = 4 - 1 ∧ simulateToGuru 123 4 = 123 :=
  ⟨(simulateToGuru_iterations 0 1).1, (simulateToGuru_iterations 123 4).2 (by decide)⟩

/-! ### Level progressions and run segmentation (src/app.js lines 68-108,
src/unnamed/part_000 lines 24-54) -/

/-- One level-progression record (the fields of p.data the core reads).
Instants are integer milliseconds; passed_at and abandoned_at are absent
(null) or present, matching JS truthiness on ISO date strings. -/
structure Prog where
  level : ℕ
  startedAt : ℤ
  passedAt : Option ℤ
  abandonedAt : Option ℤ
deriving DecidableEq

/-- Ordering of progressions by start instant, as used by the sort
comparator (a, b) => new Date(a.data.started_at) - new Date(b.data.started_at).
Modern JS Array.prototype.sort is stable, which Mathlib insertionSort
matches exactly. -/
def startedLe (a b : Prog) : Prop := a.startedAt ≤ b.startedAt

instance : DecidableRel startedLe :=
  fun a b => inferInstanceAs (Decidable (a.startedAt ≤ b.startedAt))

instance : IsTotal Prog startedLe := ⟨fun a b => le_total a.startedAt b.startedAt⟩

instance : IsTrans Prog startedLe := ⟨fun _ _ _ h h2 => le_trans h h2⟩

/-- Ordering of progressions by level, as used by
done.sort((a, b) => a.data.level - b.data.level). -/
def levelLe (a b : Prog) : Prop := a.level ≤ b.level

instance : DecidableRel levelLe :=
  fun a b => inferInstanceAs (Decidable (a.level ≤ b.level))

instance : IsTotal Prog levelLe := ⟨fun a b => Nat.le_total a.level b.level⟩

instance : IsTrans Prog levelLe := ⟨fun _ _ _ h h2 => le_trans h h2⟩

/-- The run-start marker scan of getCurrentRunStart: walk the
started_at-sorted progressions with runStartDate and prevLevel threaded;
an attempt whose level is ≤ the previous attempt's level and ≤ 5 marks a
new run start. -/
def runScan : ℤ → ℕ → List Prog → ℤ
  | runStartDate, _, [] => runStartDate
  | runStartDate, prevLevel, p :: rest =>
    runScan (if p.level ≤ prevLevel ∧ p.level ≤ 5 then p.startedAt else runStartDate)
      p.level rest

/-- getCurrentRunStart (src/app.js lines 68-82): none on an empty input
(the source returns null), otherwise the scan starting from the earliest
started_at with prevLevel 0. -/
def getCurrentRunStart (progressions : List Prog) : Option ℤ :=
  match List.insertionSort startedLe progressions with
  | [] => none
  | h :: t => some (runScan h.startedAt 0 (h :: t))

/-- The current-run filter of computeStats (src/app.js lines 85-88):
keep the attempts started at or after the current run start. On an empty
input the filter runs over the empty list and returns it. -/
def currentRunFilter (progressions : List Prog) : List Prog :=
  match getCurrentRunStart progressions with
  | none => []
  | some runStart => progressions.filter fun p => runStart ≤ p.startedAt

/-- The qualifying filter of computeStats: passed_at present, abandoned_at
absent, level strictly below the current level. -/
def qualifies (currentLevel : ℕ) (p : Prog) : Prop :=
  p.passedAt.isSome ∧ p.abandonedAt.isNone ∧ p.level < currentLevel

instance (currentLevel : ℕ) (p : Prog) : Decidable (qualifies currentLevel p) :=
  inferInstanceAs (Decidable (_ ∧ _ ∧ _))

/-- The qualifying completed attempts of the current run, before sorting. -/
def doneOf (progressions : List Prog) (currentLevel : ℕ) : List Prog :=
  (currentRunFilter progressions).filter fun p => decide (qualifies currentLevel p)

/-- The ≤ order on ℚ as a named relation for insertionSort. -/
def ratLe (a b : ℚ) : Prop := a ≤ b

instance : DecidableRel ratLe := fun a b => inferInstanceAs (Decidable (a ≤ b))

instance : IsTotal ℚ ratLe := ⟨fun a b => le_total a b⟩

instance : IsTrans ℚ ratLe := ⟨fun _ _ _ h h2 => le_trans h h2⟩

/-- The result record of computeStats. Durations are in (fractional)
days. -/
structure Stats where
  avg : ℚ
  median : ℚ
  fast : ℚ
  slow : ℚ
  recent : ℚ
  durs : List ℚ
  sorted : List ℚ
  done : List Prog
deriving DecidableEq

/-- computeStats (src/app.js lines 84-108). Index arithmetic:
Math.floor(n * 0.5), Math.floor(n * 0.25) and Math.floor(n * 0.75) are
exact in floats at list-length magnitudes, so they are n / 2, n / 4 and
3 * n / 4 in ℕ. The JS fallbacks sorted[i] || sorted[0] and
sorted[i] || sorted[n-1] trigger on a falsy (zero) element, since the
index is always in bounds; they are modelled by the zero tests. -/
def computeStats (progressions : List Prog) (currentLevel : ℕ) : Option Stats :=
  let done0 := doneOf progressions currentLevel
  if done0.length < 2 then none
  else
    let done := List.insertionSort levelLe done0
    let durs := done.map fun p => ((p.passedAt.getD 0 - p.startedAt : ℤ) : ℚ) / 86400000
    let sortedD := List.insertionSort ratLe durs
    let n := sortedD.length
    let avg := durs.foldl (· + ·) 0 / (durs.length : ℚ)
    let median := sortedD.getD (n / 2) 0
    let fast := if sortedD.getD (n / 4) 0 = 0 then sortedD.getD 0 0 else sortedD.getD (n / 4) 0
    let slow :=
      if sortedD.getD (3 * n / 4) 0 = 0 then sortedD.getD (n - 1) 0
      else sortedD.getD (3 * n / 4) 0
    let recentL := durs.drop (durs.length - 5)
    let recent := recentL.foldl (· + ·) 0 / (recentL.length : ℚ)
    some ⟨avg, median, fast, slow, recent, durs, sortedD, done⟩

/-- A completed attempt at the given level, starting at the given whole
day and lasting the given whole number of days. -/
def mkProg (lvl : ℕ) (startDay durDays : ℤ) : Prog :=
  ⟨lvl, startDay * 86400000, some ((startDay + durDays) * 86400000), none⟩

/-- C5: whenever fewer than 2 attempts qualify (passed_at present,
abandoned_at absent, level strictly below the current level, within the
current run), computeStats returns the insufficient-data marker (none)
rather than any computed statistic. -/
theorem computeStats_insufficient (ps : List Prog) (lvl : ℕ)
    (h : (doneOf ps lvl).length < 2) : computeStats ps lvl = none := by
  simp only [computeStats, if_pos h]

/-- One single completed attempt. -/
def c5input : List Prog := [mkProg 1 0 5]

/-- Witness for C5: with exactly one qualifying completed attempt,
computeStats returns none. -/
theorem computeStats_insufficient_witness :
    (doneOf c5input 3).length < 2 ∧ computeStats c5input 3 = none :=
  ⟨by decide, computeStats_insufficient c5input 3 (by decide)⟩

/-! ### Pace statistics claims -/

/-- Five completed attempts, levels 1..5, with durations 5, 7, 7, 9 and
20 days: the concrete Pace Statistics scenario of the spec. -/
def c3input : List Prog :=
  [mkProg 1 0 5, mkProg 2 30 7, mkProg 3 60 7, mkProg 4 90 9, mkProg 5 120 20]

/-- C3 (counterexample): on the duration list [5, 7, 7, 9, 20],
computeStats returns fastPercentile sorted[Math.floor(5 * 0.25)] =
sorted[1] = 7, not 5 as the claim states. -/
theorem computeStats_scenario_fast_is_seven :
    (computeStats c3input 6).map Stats.durs = some [5, 7, 7, 9, 20] ∧
      (computeStats c3input 6).map Stats.fast = some 7 ∧ ((7 : ℚ) ≠ 5) := by
  refine ⟨?_, ?_, by norm_num⟩ <;>
    norm_num [computeStats, doneOf, currentRunFilter, getCurrentRunStart, runScan,
      List.insertionSort, List.orderedInsert, startedLe, levelLe, ratLe, qualifies,
      mkProg, c3input]

/-- C3 (amended): on the duration list [5, 7, 7, 9, 20], computeStats
produces median 7, fastPercentile 7, slowPercentile 9 and average
9.6 = 48/5. -/
theorem computeStats_scenario :
    (computeStats c3input 6).map (fun s => (s.durs, s.median, s.fast, s.slow, s.avg)) =
      some ([5, 7, 7, 9, 20], 7, 7, 9, 48 / 5) := by
  norm_num [computeStats, doneOf, currentRunFilter, getCurrentRunStart, runScan,
    List.insertionSort, List.orderedInsert, startedLe, levelLe, ratLe, qualifies,
    mkProg, c3input]

/-- Four completed attempts, levels 1..4, durations 1, 2, 3, 4 days: an
even-length duration list. -/
def c4input : List Prog :=
  [mkProg 1 0 1, mkProg 2 10 2, mkProg 3 20 3, mkProg 4 30 4]

/-- C4 (counterexample): on the even-length sorted duration list
[1, 2, 3, 4], computeStats returns median sorted[Math.floor(4 / 2)] =
sorted[2] = 3, the upper-middle element, not the lower-middle element
sorted[1] = 2 the claim states. -/
theorem computeStats_median_not_lower_middle :
    (computeStats c4input 5).map Stats.durs = some [1, 2, 3, 4] ∧
      (computeStats c4input 5).map Stats.median = some 3 ∧ ((3 : ℚ) ≠ 2) := by
  refine ⟨?_, ?_, by norm_num⟩ <;>
    norm_num [computeStats, doneOf, currentRunFilter, getCurrentRunStart, runScan,
      List.insertionSort, List.orderedInsert, startedLe, levelLe, ratLe, qualifies,
      mkProg, c4input]

/-- C4 (amended): whenever computeStats succeeds, its median is the
element at index n / 2 of the ascending-sorted duration list — the
upper-middle element on even-length lists, with no interpolation. The
first two conjuncts identify the sorted field as an ascending sort of the
durations. -/
theorem computeStats_median_upper_middle (ps : List Prog) (lvl : ℕ) (s : Stats)
    (h : computeStats ps lvl = some s) :
    List.Sorted ratLe s.sorted ∧ s.sorted.Perm s.durs ∧
      s.median = s.sorted.getD (s.durs.length / 2) 0 := by
  by_cases hlen : (doneOf ps lvl).length < 2
  · rw [computeStats_insufficient ps lvl hlen] at h
    exact absurd h (by simp)
  · simp only [computeStats, if_neg hlen, Option.some.injEq] at h
    subst h
    refine ⟨List.sorted_insertionSort _ _, List.perm_insertionSort _ _, ?_⟩
    simp only [List.Perm.length_eq (List.perm_insertionSort ratLe _)]

/-- The Stats record computeStats produces on c4input. -/
def c4stats : Stats :=
  ⟨5 / 2, 3, 2, 4, 5 / 2, [1, 2, 3, 4], [1, 2, 3, 4], c4input⟩

/-- Witness for C4 (amended) at the even-length scenario: the median is
the element at index 4 / 2 = 2 of the sorted duration list. -/
theorem computeStats_median_upper_middle_witness :
    computeStats c4input 5 = some c4stats ∧
      c4stats.median = c4stats.sorted.getD (c4stats.durs.length / 2) 0 := by
  have h : computeStats c4input 5 = some c4stats := by
    norm_num [computeStats, doneOf, currentRunFilter, getCurrentRunStart, runScan,
      List.insertionSort, List.orderedInsert, startedLe, levelLe, ratLe, qualifies,
      mkProg, c4input, c4stats]
  exact ⟨h, (computeStats_median_upper_middle c4input 5 c4stats h).2.2⟩

/-! ### Run segmentation idempotence: the run-start-marker policy -/

/-- The prevLevel value after scanning a list of progressions. -/
def prevAfter (prev : ℕ) : List Prog → ℕ
  | [] => prev
  | p :: rest => prevAfter p.level rest

/-- No element of the list triggers the run-start-marker condition when
the scan starts with the given prevLevel. -/
def NoMarker : ℕ → List Prog → Prop
  | _, [] => True
  | prev, p :: rest => ¬(p.level ≤ prev ∧ p.level ≤ 5) ∧ NoMarker p.level rest

/-- Every element of the list that triggers the run-start-marker
condition has start instant c. -/
def MarkersOnly (c : ℤ) : ℕ → List Prog → Prop
  | _, [] => True
  | prev, p :: rest => ((p.level ≤ prev ∧ p.level ≤ 5) → p.startedAt = c) ∧
      MarkersOnly c p.level rest

theorem prevAfter_append (prev : ℕ) (a b : List Prog) :
    prevAfter prev (a ++ b) = prevAfter (prevAfter prev a) b := by
  induction a generalizing prev with
  | nil => rfl
  | cons p rest ih =>
    show prevAfter p.level (rest ++ b) = prevAfter (prevAfter p.level rest) b
    exact ih p.level

theorem prevAfter_concat (prev : ℕ) (a : List Prog) (y : Prog) :
    prevAfter prev (a ++ [y]) = y.level := by
  rw [prevAfter_append]; rfl

theorem runScan_eq_of_markersOnly (c : ℤ) :
    ∀ (l : List Prog) (prev : ℕ), MarkersOnly c prev l → runScan c prev l = c := by
  intro l
  induction l with
  | nil => intro prev _; rfl
  | cons p rest ih =>
    intro prev h
    simp only [MarkersOnly] at h
    simp only [runScan]
    by_cases ht : p.level ≤ prev ∧ p.level ≤ 5
    · rw [if_pos ht, h.1 ht]; exact ih p.level h.2
    · rw [if_neg ht]; exact ih p.level h.2

theorem markersOnly_of_forall (c : ℤ) :
    ∀ (l : List Prog) (prev : ℕ), (∀ p ∈ l, p.startedAt = c) → MarkersOnly c prev l := by
  intro l
  induction l with
  | nil => intro prev _; trivial
  | cons p rest ih =>
    intro prev h
    exact ⟨fun _ => h p (List.mem_cons_self p rest),
      ih p.level fun q hq => h q (List.mem_cons_of_mem p hq)⟩

theorem markersOnly_of_noMarker (c : ℤ) :
    ∀ (l : List Prog) (prev : ℕ), NoMarker prev l → MarkersOnly c prev l := by
  intro l
  induction l with
  | nil => intro prev _; trivial
  | cons p rest ih =>
    intro prev h
    exact ⟨fun ht => absurd ht h.1, ih p.level h.2⟩

theorem markersOnly_append (c : ℤ) :
    ∀ (a b : List Prog) (prev : ℕ), MarkersOnly c prev a →
      MarkersOnly c (prevAfter prev a) b → MarkersOnly c prev (a ++ b) := by
  intro a
  induction a with
  | nil => intro b prev _ hb; exact hb
  | cons p rest ih =>
    intro b prev ha hb
    exact ⟨ha.1, ih b p.level ha.2 hb⟩

/-- Decomposition of a run-start scan: either no element triggers the
marker condition and the accumulator passes through, or the list splits
at the last triggering element, whose start instant is the result. -/
theorem runScan_cases :
    ∀ (l : List Prog) (rsd : ℤ) (prev : ℕ),
      (NoMarker prev l ∧ runScan rsd prev l = rsd) ∨
        ∃ a M b, l = a ++ M :: b ∧ (M.level ≤ prevAfter prev a ∧ M.level ≤ 5) ∧
          NoMarker M.level b ∧ runScan rsd prev l = M.startedAt := by
  intro l
  induction l with
  | nil => intro rsd prev; exact Or.inl ⟨trivial, rfl⟩
  | cons p rest ih =>
    intro rsd prev
    by_cases ht : p.level ≤ prev ∧ p.level ≤ 5
    · rcases ih p.startedAt p.level with ⟨hnm, heq⟩ | ⟨a, M, b, heq, htrig, hnm, hres⟩
      · refine Or.inr ⟨[], p, rest, rfl, ?_, hnm, ?_⟩
        · exact ht
        · simp only [runScan, if_pos ht]; exact heq
      · refine Or.inr ⟨p :: a, M, b, by rw [heq]; rfl, ?_, hnm, ?_⟩
        · exact htrig
        · simp only [runScan, if_pos ht]; exact hres
    · rcases ih rsd p.level with ⟨hnm, heq⟩ | ⟨a, M, b, heq, htrig, hnm, hres⟩
      · refine Or.inl ⟨⟨ht, hnm⟩, ?_⟩
        simp only [runScan, if_neg ht]; exact heq
      · refine Or.inr ⟨p :: a, M, b, by rw [heq]; rfl, htrig, hnm, ?_⟩
        simp only [runScan, if_neg ht]; exact hres

/-- Filtering commutes with ordered insertion into a sorted list. -/
theorem orderedInsert_filter {α : Type} (r : α → α → Prop) [DecidableRel r] [IsTrans α r]
    (q : α → Bool) (x : α) :
    ∀ s : List α, List.Sorted r s →
      (List.orderedInsert r x s).filter q =
        if q x then List.orderedInsert r x (s.filter q) else s.filter q := by
  intro s
  induction s with
  | nil =>
    intro _
    simp only [List.orderedInsert, List.filter_nil]
    by_cases hq : q x
    · rw [if_pos hq]; simp [List.filter, hq]
    · rw [if_neg hq]; simp [List.filter, hq]
  | cons y ys ih =>
    intro hs
    have hys : List.Sorted r ys := hs.of_cons
    have hymin : ∀ z ∈ ys, r y z := (List.sorted_cons.mp hs).1
    by_cases hxy : r x y
    · rw [List.orderedInsert_of_le _ _ hxy]
      by_cases hq : q x
      · rw [if_pos hq, List.filter_cons_of_pos hq]
        rcases hf : (y :: ys).filter q with _ | ⟨z, zs⟩
        · simp [List.orderedInsert]
        · have hz : z ∈ (y :: ys).filter q := by rw [hf]; exact List.mem_cons_self z zs
          have hz2 : z ∈ y :: ys := List.mem_of_mem_filter hz
          have hrz : r x z := by
            rcases List.mem_cons.mp hz2 with h | h
            · rw [h]; exact hxy
            · exact Trans.trans hxy (hymin z h)
          rw [List.orderedInsert_of_le _ _ hrz]
      · rw [if_neg hq, List.filter_cons_of_neg (by simpa using hq)]
    · have hins : List.orderedInsert r x (y :: ys) = y :: List.orderedInsert r x ys := by
        simp only [List.orderedInsert, if_neg hxy]
      rw [hins]
      by_cases hqy : q y
      · rw [List.filter_cons_of_pos hqy, List.filter_cons_of_pos hqy, ih hys]
        by_cases hq : q x
        · rw [if_pos hq, if_pos hq]
          simp only [List.orderedInsert, if_neg hxy]
        · rw [if_neg hq, if_neg hq]
      · rw [List.filter_cons_of_neg (by simpa using hqy),
          List.filter_cons_of_neg (by simpa using hqy), ih hys]

/-- Filtering commutes with a stable insertion sort: sorting the filtered
list equals filtering the sorted list. -/
theorem insertionSort_filter {α : Type} (r : α → α → Prop) [DecidableRel r]
    [IsTotal α r] [IsTrans α r] (q : α → Bool) (l : List α) :
    List.insertionSort r (l.filter q) = (List.insertionSort r l).filter q := by
  induction l with
  | nil => rfl
  | cons x l ih =>
    rw [List.filter_cons]
    have hsorted := List.sorted_insertionSort r l
    by_cases hq : q x
    · rw [if_pos hq]
      simp only [List.insertionSort, ih]
      rw [orderedInsert_filter r q x _ hsorted, if_pos hq]
    · rw [if_neg hq]
      simp only [List.insertionSort, ih]
      rw [orderedInsert_filter r q x _ hsorted, if_neg hq]

theorem getCurrentRunStart_of_sort_eq {ps : List Prog} {h0 : Prog} {t0 : List Prog}
    (hs : List.insertionSort startedLe ps = h0 :: t0) :
    getCurrentRunStart ps = some (runScan h0.startedAt 0 (h0 :: t0)) := by
  simp only [getCurrentRunStart, hs]

theorem eq_nil_of_getCurrentRunStart_eq_none {ps : List Prog}
    (h : getCurrentRunStart ps = none) : ps = [] := by
  rcases hs : List.insertionSort startedLe ps with _ | ⟨h0, t0⟩
  · have hperm := List.perm_insertionSort startedLe ps
    rw [hs] at hperm
    exact (hperm.symm.eq_nil)
  · rw [getCurrentRunStart_of_sort_eq hs] at h
    cases h

/-- Rescanning the current-run-filtered attempt set finds the same run
start. -/
theorem getCurrentRunStart_filter (ps : List Prog) (rs : ℤ)
    (h : getCurrentRunStart ps = some rs) :
    getCurrentRunStart (ps.filter fun p => decide (rs ≤ p.startedAt)) = some rs := by
  rcases hs : List.insertionSort startedLe ps with _ | ⟨h0, t0⟩
  · have hperm := List.perm_insertionSort startedLe ps
    rw [hs] at hperm
    rw [hperm.symm.eq_nil] at h
    exact Option.noConfusion h
  · rw [getCurrentRunStart_of_sort_eq hs, Option.some.injEq] at h
    have hsorted : List.Sorted startedLe (h0 :: t0) := by
      rw [← hs]; exact List.sorted_insertionSort startedLe ps
    have hfil : List.insertionSort startedLe
        (ps.filter fun p => decide (rs ≤ p.startedAt)) =
        (h0 :: t0).filter fun p => decide (rs ≤ p.startedAt) := by
      rw [insertionSort_filter startedLe _ ps, hs]
    rcases runScan_cases (h0 :: t0) h0.startedAt 0 with ⟨hnm, heq⟩ |
      ⟨a, M, b, heq, htrig, hnm, hres⟩
    · -- no marker: the run start is the minimal start instant,
      -- so the filter keeps everything
      have hrs : rs = h0.startedAt := by rw [← h, heq]
      have hall : (h0 :: t0).filter (fun p => decide (rs ≤ p.startedAt)) = h0 :: t0 := by
        apply List.filter_eq_self.mpr
        intro p hp
        rcases List.mem_cons.mp hp with hph | hpt
        · subst hph; simp [hrs]
        · have := (List.sorted_cons.mp hsorted).1 p hpt
          simp only [decide_eq_true_eq, hrs]
          exact this
      rw [hall] at hfil
      rw [getCurrentRunStart_of_sort_eq hfil, heq, hrs]
    · -- marker case: the scan result is the start of the last marker M
      have hrs : rs = M.startedAt := by rw [← h, hres]
      have hsorted2 : List.Sorted startedLe (a ++ M :: b) := by rw [← heq]; exact hsorted
      have haM : ∀ p ∈ a, p.startedAt ≤ M.startedAt := by
        intro p hp
        have := (List.pairwise_append.mp hsorted2).2.2 p hp M (List.mem_cons_self M b)
        exact this
      have hMb : ∀ p ∈ b, M.startedAt ≤ p.startedAt := by
        intro p hp
        exact (List.sorted_cons.mp (List.pairwise_append.mp hsorted2).2.1).1 p hp
      have hfilMb : (M :: b).filter (fun p => decide (rs ≤ p.startedAt)) = M :: b := by
        apply List.filter_eq_self.mpr
        intro p hp
        rcases List.mem_cons.mp hp with hph | hpt
        · subst hph; simp [hrs]
        · simp only [decide_eq_true_eq, hrs]
          exact hMb p hpt
      have hsplit : (h0 :: t0).filter (fun p => decide (rs ≤ p.startedAt)) =
          (a.filter fun p => decide (rs ≤ p.startedAt)) ++ M :: b := by
        rw [heq, List.filter_append, hfilMb]
      have ha2 : ∀ p ∈ a.filter (fun p => decide (rs ≤ p.startedAt)), p.startedAt = rs := by
        intro p hp
        have h1 := haM p (List.mem_of_mem_filter hp)
        have h2 := List.of_mem_filter hp
        simp only [decide_eq_true_eq] at h2
        omega
      -- the rescan of the filtered list stays at rs throughout
      have hscan : ∀ h1 t1, (a.filter fun p => decide (rs ≤ p.startedAt)) ++ M :: b
            = h1 :: t1 → runScan h1.startedAt 0 (h1 :: t1) = rs := by
        intro h1 t1 hcons
        have hh1 : h1.startedAt = rs := by
          rcases hfa : a.filter (fun p => decide (rs ≤ p.startedAt)) with _ | ⟨x, xs⟩
          · rw [hfa, List.nil_append, List.cons.injEq] at hcons
            rw [← hcons.1, hrs]
          · rw [hfa, List.cons_append, List.cons.injEq] at hcons
            exact ha2 h1 (by rw [hfa, ← hcons.1]; exact List.mem_cons_self x xs)
        have hmo : MarkersOnly rs 0 (((a.filter fun p => decide (rs ≤ p.startedAt))
            ++ [M]) ++ b) := by
          apply markersOnly_append
          · apply markersOnly_of_forall
            intro p hp
            rcases List.mem_append.mp hp with hpa | hpM
            · exact ha2 p hpa
            · rw [List.mem_singleton.mp hpM, hrs]
          · rw [prevAfter_concat]
            exact markersOnly_of_noMarker rs b M.level hnm
        have hassoc : ((a.filter fun p => decide (rs ≤ p.startedAt)) ++ [M]) ++ b =
            (a.filter fun p => decide (rs ≤ p.startedAt)) ++ M :: b := by
          simp
        rw [hassoc, hcons] at hmo
        rw [hh1]
        exact runScan_eq_of_markersOnly rs (h1 :: t1) 0 hmo
      rcases hcons : (a.filter fun p => decide (rs ≤ p.startedAt)) ++ M :: b
        with _ | ⟨h1, t1⟩
      · exact absurd hcons (by simp)
      · rw [hsplit, hcons] at hfil
        rw [getCurrentRunStart_of_sort_eq hfil, hscan h1 t1 hcons]

/-- The run-start-marker segmentation is idempotent. -/
theorem currentRunFilter_idem (ps : List Prog) :
    currentRunFilter (currentRunFilter ps) = currentRunFilter ps := by
  rcases hgc : getCurrentRunStart ps with _ | rs
  · have : ps = [] := eq_nil_of_getCurrentRunStart_eq_none hgc
    subst this
    rfl
  · have h2 := getCurrentRunStart_filter ps rs hgc
    simp only [currentRunFilter, hgc, h2, List.filter_filter]
    apply List.filter_congr
    intro p _
    simp

/-! ### Run segmentation idempotence: the latest-attempt-per-level policy
(src/unnamed/part_000 lines 24-33) -/

/-- One step of the byLevel map construction: store the progression under
its level, replacing a stored entry only when the new start instant is
strictly later. Entries are kept as an association list; since the final
result is sorted by level and levels are unique keys, the entry order of
the JS object is immaterial. -/
def upsert (m : List (ℕ × Prog)) (p : Prog) : List (ℕ × Prog) :=
  match m with
  | [] => [(p.level, p)]
  | (k, q) :: rest =>
    if k = p.level then
      (if q.startedAt < p.startedAt then (k, p) else (k, q)) :: rest
    else (k, q) :: upsert rest p

/-- The byLevel map of getLatestRun, built by the for loop. -/
def buildByLevel (progressions : List Prog) : List (ℕ × Prog) :=
  progressions.foldl upsert []

/-- getLatestRun (src/unnamed/part_000 lines 24-33): keep only the most
recently started progression for each level, sorted ascending by level. -/
def getLatestRun (progressions : List Prog) : List Prog :=
  List.insertionSort levelLe ((buildByLevel progressions).map Prod.snd)

theorem upsert_keys_of_mem {m : List (ℕ × Prog)} {p : Prog}
    (h : p.level ∈ m.map Prod.fst) : (upsert m p).map Prod.fst = m.map Prod.fst := by
  induction m with
  | nil => cases h
  | cons e rest ih =>
    obtain ⟨k, q⟩ := e
    by_cases hk : k = p.level
    · simp only [upsert, if_pos hk]
      by_cases hlt : q.startedAt < p.startedAt <;> simp [hlt]
    · simp only [List.map_cons] at h
      rcases List.mem_cons.mp h with h1 | h2
      · exact absurd h1.symm hk
      · simp only [upsert, if_neg hk, List.map_cons, ih h2]

theorem upsert_of_not_mem {m : List (ℕ × Prog)} {p : Prog}
    (h : p.level ∉ m.map Prod.fst) : upsert m p = m ++ [(p.level, p)] := by
  induction m with
  | nil => rfl
  | cons e rest ih =>
    obtain ⟨k, q⟩ := e
    simp only [List.map_cons, List.mem_cons] at h
    push_neg at h
    simp only [upsert, if_neg (Ne.symm h.1), List.cons_append, ih h.2]

theorem upsert_sndLevel {m : List (ℕ × Prog)} {p : Prog}
    (h : ∀ e ∈ m, (e : ℕ × Prog).2.level = e.1) :
    ∀ e ∈ upsert m p, (e : ℕ × Prog).2.level = e.1 := by
  induction m with
  | nil =>
    intro e he
    rw [List.mem_singleton.mp he]
  | cons f rest ih =>
    obtain ⟨k, q⟩ := f
    intro e he
    by_cases hk : k = p.level
    · simp only [upsert, if_pos hk] at he
      rcases List.mem_cons.mp he with h1 | h2
      · by_cases hlt : q.startedAt < p.startedAt
        · rw [h1, if_pos hlt, hk]
        · rw [h1, if_neg hlt]
          exact h (k, q) (List.mem_cons_self _ _)
      · exact h e (List.mem_cons_of_mem _ h2)
    · simp only [upsert, if_neg hk] at he
      rcases List.mem_cons.mp he with h1 | h2
      · rw [h1]; exact h (k, q) (List.mem_cons_self _ _)
      · exact ih (fun f hf => h f (List.mem_cons_of_mem _ hf)) e h2

theorem upsert_keys_nodup {m : List (ℕ × Prog)} {p : Prog}
    (h : (m.map Prod.fst).Nodup) : ((upsert m p).map Prod.fst).Nodup := by
  by_cases hmem : p.level ∈ m.map Prod.fst
  · rw [upsert_keys_of_mem hmem]; exact h
  · rw [upsert_of_not_mem hmem]
    simp only [List.map_append, List.map_cons, List.map_nil]
    refine List.Nodup.append h (List.nodup_singleton _) ?_
    intro k hk hk2
    rw [List.mem_singleton.mp hk2] at hk
    exact hmem hk

theorem buildByLevel_inv (ps : List Prog) :
    ((buildByLevel ps).map Prod.fst).Nodup ∧
      ∀ e ∈ buildByLevel ps, (e : ℕ × Prog).2.level = e.1 := by
  suffices h : ∀ acc : List (ℕ × Prog), (acc.map Prod.fst).Nodup →
      (∀ e ∈ acc, (e : ℕ × Prog).2.level = e.1) →
      ((ps.foldl upsert acc).map Prod.fst).Nodup ∧
        ∀ e ∈ ps.foldl upsert acc, (e : ℕ × Prog).2.level = e.1 by
    exact h [] (List.nodup_nil) (by intro e he; cases he)
  induction ps with
  | nil => intro acc h1 h2; exact ⟨h1, h2⟩
  | cons p rest ih =>
    intro acc h1 h2
    exact ih (upsert acc p) (upsert_keys_nodup h1) (upsert_sndLevel h2)

/-- Folding upsert over progressions with pairwise-distinct levels, all
fresh for the accumulator, appends them in order. -/
theorem foldl_upsert_of_nodup :
    ∀ (l : List Prog) (acc : List (ℕ × Prog)),
      (l.map Prog.level).Nodup →
      (∀ p ∈ l, p.level ∉ acc.map Prod.fst) →
      l.foldl upsert acc = acc ++ l.map fun p => (p.level, p) := by
  intro l
  induction l with
  | nil => intro acc _ _; simp
  | cons p rest ih =>
    intro acc hnd hfresh
    simp only [List.map_cons, List.nodup_cons] at hnd
    have h1 : upsert acc p = acc ++ [(p.level, p)] :=
      upsert_of_not_mem (hfresh p (List.mem_cons_self _ _))
    have h2 : rest.foldl upsert (acc ++ [(p.level, p)]) =
        (acc ++ [(p.level, p)]) ++ rest.map fun q => (q.level, q) := by
      apply ih _ hnd.2
      intro q hq
      simp only [List.map_append, List.map_cons, List.map_nil, List.mem_append,
        List.mem_singleton]
      push_neg
      refine ⟨hfresh q (List.mem_cons_of_mem _ hq), ?_⟩
      intro hlev
      exact hnd.1 (hlev ▸ List.mem_map_of_mem Prog.level hq)
    simp only [List.foldl_cons, h1, h2, List.append_assoc, List.cons_append,
      List.nil_append, List.map_cons]

theorem getLatestRun_levels_nodup (ps : List Prog) :
    ((getLatestRun ps).map Prog.level).Nodup := by
  obtain ⟨hnd, hlev⟩ := buildByLevel_inv ps
  have hmap : ((buildByLevel ps).map Prod.snd).map Prog.level =
      (buildByLevel ps).map Prod.fst := by
    rw [List.map_map]
    exact List.map_congr_left fun e he => hlev e he
  have hperm : List.Perm ((getLatestRun ps).map Prog.level)
      (((buildByLevel ps).map Prod.snd).map Prog.level) :=
    (List.perm_insertionSort levelLe _).map Prog.level
  rw [hmap] at hperm
  exact hperm.nodup_iff.mpr hnd

/-- The latest-attempt-per-level segmentation is idempotent. -/
theorem getLatestRun_idem (ps : List Prog) :
    getLatestRun (getLatestRun ps) = getLatestRun ps := by
  have hnd := getLatestRun_levels_nodup ps
  have hsorted : List.Sorted levelLe (getLatestRun ps) :=
    List.sorted_insertionSort levelLe _
  have hbuild : buildByLevel (getLatestRun ps) =
      (getLatestRun ps).map fun p => (p.level, p) := by
    have := foldl_upsert_of_nodup (getLatestRun ps) [] hnd (by simp)
    simpa [buildByLevel] using this
  rw [getLatestRun, hbuild, List.map_map]
  have : (Prod.snd ∘ fun p : Prog => (p.level, p)) = id := rfl
  rw [this, List.map_id]
  exact hsorted.insertionSort_eq

/-- C7: run segmentation is idempotent under each implemented policy:
the run-start-marker filter (getCurrentRunStart / the current-run filter
of computeStats) and the latest-attempt-per-level deduplication
(getLatestRun) each return their own output unchanged. -/
theorem runSegmentation_idempotent :
    (∀ ps : List Prog, currentRunFilter (currentRunFilter ps) = currentRunFilter ps) ∧
      ∀ ps : List Prog, getLatestRun (getLatestRun ps) = getLatestRun ps :=
  ⟨currentRunFilter_idem, getLatestRun_idem⟩

/-! ### Next-level-up forecast (src/app.js lines 130-194) -/

/-- WaniKani subject categories. Radicals are the foundational gating
category, kanji the dependent one. -/
inductive SubjectType
  | radical
  | kanji
  | vocabulary
deriving DecidableEq

/-- One assignment record (the fields of a.data computeNextLevel reads).
Option models JS null/undefined versus a truthy value. -/
structure Assignment where
  subjectType : SubjectType
  srsStage : ℕ
  startedAt : Option ℕ
  availableAt : Option ℕ
  burnedAt : Option ℕ
deriving DecidableEq

/-- The per-item simulation record built inside computeNextLevel. -/
structure GuruItem where
  guruDate : ℕ
  stage : ℕ
  stype : SubjectType
  availableAt : ℕ
deriving DecidableEq

instance : Inhabited GuruItem := ⟨⟨0, 0, SubjectType.radical, 0⟩⟩

/-- An assignment that still blocks level-up: a radical or kanji below
Guru, not burned, and already started. -/
def isBlocking (a : Assignment) : Prop :=
  (a.subjectType = SubjectType.radical ∨ a.subjectType = SubjectType.kanji) ∧
    a.srsStage < 4 ∧ a.burnedAt.isNone ∧ a.startedAt.isSome

instance (a : Assignment) : Decidable (isBlocking a) :=
  inferInstanceAs (Decidable (_ ∧ _ ∧ _ ∧ _))

def blockingOf (assignments : List Assignment) : List Assignment :=
  assignments.filter fun a => decide (isBlocking a)

/-- The simulation of one blocking item: start from its availability
instant (or now when it is already available or has none), at its current
stage, and climb to Guru. -/
def guruOf (now : ℕ) (a : Assignment) : GuruItem :=
  let availableAt := a.availableAt.getD now
  let startFrom := if availableAt ≤ now then now else availableAt
  ⟨simulateToGuru startFrom a.srsStage, a.srsStage, a.subjectType, availableAt⟩

/-- Descending order on simulated Guru instants (the sort comparator
(a, b) => b.guruDate - a.guruDate). -/
def guruDescLe (x y : GuruItem) : Prop := y.guruDate ≤ x.guruDate

instance : DecidableRel guruDescLe :=
  fun x y => inferInstanceAs (Decidable (y.guruDate ≤ x.guruDate))

instance : IsTotal GuruItem guruDescLe := ⟨fun x y => Nat.le_total y.guruDate x.guruDate⟩

instance : IsTrans GuruItem guruDescLe := ⟨fun _ _ _ h h2 => le_trans h2 h⟩

/-- Ascending order on simulated Guru instants (the sort comparator
(a, b) => a.guruDate - b.guruDate). -/
def guruAscLe (x y : GuruItem) : Prop := x.guruDate ≤ y.guruDate

instance : DecidableRel guruAscLe :=
  fun x y => inferInstanceAs (Decidable (x.guruDate ≤ y.guruDate))

instance : IsTotal GuruItem guruAscLe := ⟨fun x y => Nat.le_total x.guruDate y.guruDate⟩

instance : IsTrans GuruItem guruAscLe := ⟨fun _ _ _ h h2 => le_trans h h2⟩

/-- The output record of computeNextLevel. stageBreakdown pairs each
pre-Guru stage with its count of blocking items, keeping nonzero counts. -/
structure NextLevel where
  levelUpDate : ℕ
  blockingCount : ℕ
  criticalItem : Option GuruItem
  stageBreakdown : List (ℕ × ℕ)
deriving DecidableEq

/-- computeNextLevel (src/app.js lines 130-194). With no blocking item,
level-up is imminent: the next review window. Otherwise every blocking
item is simulated to Guru; when kanji block, the level-up instant is the
90th-percentile kanji Guru instant (Math.floor(length * 0.1) is exactly
length / 10 at list-length magnitudes); when only radicals block, it is
the first entry of the descending-sorted simulations, their latest Guru
instant. -/
def computeNextLevel (now : ℕ) (assignments : List Assignment) : NextLevel :=
  let blocking := blockingOf assignments
  if blocking.length = 0 then ⟨nextWindow now, 0, none, []⟩
  else
    let guruDates := List.insertionSort guruDescLe (blocking.map (guruOf now))
    let kanjiItems := guruDates.filter fun g => decide (g.stype = SubjectType.kanji)
    let levelUpDate :=
      if 0 < kanjiItems.length then
        let idx := kanjiItems.length / 10
        let sortedKanji := List.insertionSort guruAscLe kanjiItems
        (sortedKanji.getD (max 0 ((sortedKanji.length : ℤ) - 1 - (idx : ℤ))).toNat
          default).guruDate
      else (guruDates.getD 0 default).guruDate
    ⟨levelUpDate, blocking.length, guruDates.head?,
      (([0, 1, 2, 3] : List ℕ).map fun st =>
        (st, (blocking.filter fun a => decide (a.srsStage = st)).length)).filter
        fun e => decide (0 < e.2)⟩

/-- The simulated Guru instants of the dependent (kanji) blocking items. -/
def kanjiGuruDates (now : ℕ) (assignments : List Assignment) : List ℕ :=
  (((blockingOf assignments).map (guruOf now)).filter
    fun g => decide (g.stype = SubjectType.kanji)).map GuruItem.guruDate

/-- The simulated Guru instants of the foundational (radical) blocking
items. -/
def radicalGuruDates (now : ℕ) (assignments : List Assignment) : List ℕ :=
  (((blockingOf assignments).map (guruOf now)).filter
    fun g => decide (g.stype = SubjectType.radical)).map GuruItem.guruDate

theorem getD_map_guruDate :
    ∀ (l : List GuruItem) (i : ℕ),
      (l.map GuruItem.guruDate).getD i 0 = (l.getD i default).guruDate := by
  intro l
  induction l with
  | nil => intro i; rfl
  | cons x xs ih =>
    intro i
    cases i with
    | zero => rfl
    | succ j => exact ih j

/-- C6: with a non-empty blocking set, if any dependent (kanji) items
exist the level-up instant is the simulated Guru instant at index
max(0, n - 1 - floor(n / 10)) of the kanji Guru instants sorted
ascending (n their count), and if only foundational (radical) items
block, it is their latest (maximum) simulated Guru instant. The
ascending-sorted list is characterised as any sorted permutation of the
kanji Guru instants. -/
theorem computeNextLevel_spec (now : ℕ) (assignments : List Assignment)
    (hne : blockingOf assignments ≠ []) :
    (kanjiGuruDates now assignments ≠ [] →
      ∀ l2 : List ℕ, List.Perm l2 (kanjiGuruDates now assignments) →
        List.Sorted (· ≤ ·) l2 →
        (computeNextLevel now assignments).levelUpDate =
          l2.getD (max 0 (((kanjiGuruDates now assignments).length : ℤ) - 1 -
            (((kanjiGuruDates now assignments).length / 10 : ℕ) : ℤ))).toNat 0) ∧
    (kanjiGuruDates now assignments = [] →
      (computeNextLevel now assignments).levelUpDate ∈ radicalGuruDates now assignments ∧
        ∀ x ∈ radicalGuruDates now assignments,
          x ≤ (computeNextLevel now assignments).levelUpDate) := by
  have hlen : ¬(blockingOf assignments).length = 0 := by
    simpa [List.length_eq_zero] using hne
  have hproj : (computeNextLevel now assignments).levelUpDate =
      (let guruDates := List.insertionSort guruDescLe
        ((blockingOf assignments).map (guruOf now))
       let kanjiItems := guruDates.filter fun g => decide (g.stype = SubjectType.kanji)
       if 0 < kanjiItems.length then
         let idx := kanjiItems.length / 10
         let sortedKanji := List.insertionSort guruAscLe kanjiItems
         (sortedKanji.getD (max 0 ((sortedKanji.length : ℤ) - 1 - (idx : ℤ))).toNat
           default).guruDate
       else (guruDates.getD 0 default).guruDate) := by
    simp only [computeNextLevel, if_neg hlen]
  have permK : List.Perm
      ((List.insertionSort guruDescLe ((blockingOf assignments).map (guruOf now))).filter
        fun g => decide (g.stype = SubjectType.kanji))
      (((blockingOf assignments).map (guruOf now)).filter
        fun g => decide (g.stype = SubjectType.kanji)) :=
    (List.perm_insertionSort guruDescLe _).filter _
  have hkgd : kanjiGuruDates now assignments =
      (((blockingOf assignments).map (guruOf now)).filter
        fun g => decide (g.stype = SubjectType.kanji)).map GuruItem.guruDate := rfl
  constructor
  · -- dependent (kanji) items exist
    intro h1 l2 hperm hsorted
    have hkune : (((blockingOf assignments).map (guruOf now)).filter
        fun g => decide (g.stype = SubjectType.kanji)) ≠ [] := by
      intro hn
      exact h1 (by rw [hkgd, hn]; rfl)
    have hkne : 0 < ((List.insertionSort guruDescLe
        ((blockingOf assignments).map (guruOf now))).filter
        fun g => decide (g.stype = SubjectType.kanji)).length := by
      rw [permK.length_eq]
      exact List.length_pos.mpr hkune
    rw [hproj]
    simp only [if_pos hkne]
    have hpermSK : List.Perm
        (List.insertionSort guruAscLe
          ((List.insertionSort guruDescLe ((blockingOf assignments).map (guruOf now))).filter
            fun g => decide (g.stype = SubjectType.kanji)))
        (((blockingOf assignments).map (guruOf now)).filter
          fun g => decide (g.stype = SubjectType.kanji)) :=
      (List.perm_insertionSort guruAscLe _).trans permK
    have hmapsorted : List.Sorted (· ≤ ·)
        ((List.insertionSort guruAscLe
          ((List.insertionSort guruDescLe ((blockingOf assignments).map (guruOf now))).filter
            fun g => decide (g.stype = SubjectType.kanji))).map GuruItem.guruDate) :=
      List.Pairwise.map GuruItem.guruDate (fun _ _ h => h)
        (List.sorted_insertionSort guruAscLe _)
    have hl2 : l2 = (List.insertionSort guruAscLe
        ((List.insertionSort guruDescLe ((blockingOf assignments).map (guruOf now))).filter
          fun g => decide (g.stype = SubjectType.kanji))).map GuruItem.guruDate := by
      apply List.eq_of_perm_of_sorted _ hsorted hmapsorted
      exact hperm.trans (by rw [hkgd]; exact (hpermSK.map GuruItem.guruDate).symm)
    rw [hl2, getD_map_guruDate]
    have h3 : (kanjiGuruDates now assignments).length =
        ((List.insertionSort guruDescLe ((blockingOf assignments).map (guruOf now))).filter
          fun g => decide (g.stype = SubjectType.kanji)).length := by
      rw [hkgd, List.length_map, permK.length_eq]
    have h4 : (List.insertionSort guruAscLe
        ((List.insertionSort guruDescLe ((blockingOf assignments).map (guruOf now))).filter
          fun g => decide (g.stype = SubjectType.kanji))).length =
        ((List.insertionSort guruDescLe ((blockingOf assignments).map (guruOf now))).filter
          fun g => decide (g.stype = SubjectType.kanji)).length :=
      (List.perm_insertionSort guruAscLe _).length_eq
    rw [h3, h4]
  · -- only foundational (radical) items block
    intro h1
    have hkun : (((blockingOf assignments).map (guruOf now)).filter
        fun g => decide (g.stype = SubjectType.kanji)) = [] := by
      rw [hkgd] at h1
      exact List.map_eq_nil_iff.mp h1
    have hknil : ((List.insertionSort guruDescLe
        ((blockingOf assignments).map (guruOf now))).filter
        fun g => decide (g.stype = SubjectType.kanji)) = [] :=
      (hkun ▸ permK).eq_nil
    have hkcond : ¬ 0 < ((List.insertionSort guruDescLe
        ((blockingOf assignments).map (guruOf now))).filter
        fun g => decide (g.stype = SubjectType.kanji)).length := by
      rw [hknil]; exact lt_irrefl 0
    have hitems : (blockingOf assignments).map (guruOf now) ≠ [] := by
      intro hn
      exact hne (List.map_eq_nil_iff.mp hn)
    rcases hgs : List.insertionSort guruDescLe ((blockingOf assignments).map (guruOf now))
      with _ | ⟨h, t⟩
    · exact absurd ((hgs ▸ List.perm_insertionSort guruDescLe _).symm.eq_nil) hitems
    · have hval : (computeNextLevel now assignments).levelUpDate = h.guruDate := by
        rw [hproj]
        simp only [if_neg hkcond]
        rw [hgs]
        rfl
      have hmemh : h ∈ (blockingOf assignments).map (guruOf now) := by
        have := List.perm_insertionSort guruDescLe ((blockingOf assignments).map (guruOf now))
        rw [hgs] at this
        exact this.mem_iff.mp (List.mem_cons_self h t)
      have hrad : h.stype = SubjectType.radical := by
        obtain ⟨a, ha, hga⟩ := List.mem_map.mp hmemh
        have hba : isBlocking a := of_decide_eq_true (List.mem_filter.mp ha).2
        rcases hba.1 with hr | hk
        · rw [← hga]; exact hr
        · exfalso
          have : h ∈ (((blockingOf assignments).map (guruOf now)).filter
              fun g => decide (g.stype = SubjectType.kanji)) := by
            refine List.mem_filter.mpr ⟨hmemh, ?_⟩
            rw [← hga]
            simp [guruOf, hk]
          rw [hkun] at this
          cases this
      constructor
      · rw [hval]
        exact List.mem_map_of_mem GuruItem.guruDate
          (List.mem_filter.mpr ⟨hmemh, by simp [hrad]⟩)
      · intro x hx
        obtain ⟨g, hg, hgx⟩ := List.mem_map.mp hx
        have hgitems : g ∈ (blockingOf assignments).map (guruOf now) :=
          (List.mem_filter.mp hg).1
        have hgsort : g ∈ List.insertionSort guruDescLe
            ((blockingOf assignments).map (guruOf now)) :=
          (List.perm_insertionSort guruDescLe _).mem_iff.mpr hgitems
        rw [hgs] at hgsort
        rw [hval, ← hgx]
        rcases List.mem_cons.mp hgsort with hgh | hgt
        · rw [hgh]
        · have hsorted2 : List.Sorted guruDescLe (h :: t) := by
            rw [← hgs]; exact List.sorted_insertionSort guruDescLe _
          exact (List.sorted_cons.mp hsorted2).1 g hgt

/-- One blocking kanji assignment at Apprentice 4 (stage 3), already
available at instant 0. -/
def c6input : List Assignment :=
  [⟨SubjectType.kanji, 3, some 0, some 0, none⟩]

/-- Witness for C6 at a single blocking kanji item starting at instant 0,
stage 3: its simulated Guru instant is day 2 at 9:00 (205200000 ms), and
with n = 1 the 90th-percentile index is 0, so the level-up instant is
that instant. -/
theorem computeNextLevel_spec_witness :
    blockingOf c6input ≠ [] ∧ kanjiGuruDates 0 c6input = [205200000] ∧
      (computeNextLevel 0 c6input).levelUpDate = 205200000 := by
  have h := (computeNextLevel_spec 0 c6input (by decide)).1 (by decide)
    [205200000] (by decide) (by decide)
  exact ⟨by decide, by decide, h.trans (by decide)⟩

/-! ### Review statistics and the speedup decomposition -/

/-- One review-statistics record (the fields of rs.data the speedup
analysis reads). -/
structure ReviewStat where
  meaningCorrect : ℕ
  meaningIncorrect : ℕ
  readingCorrect : ℕ
  readingIncorrect : ℕ
deriving DecidableEq

/-- Theoretical minimum days per level with perfect windows and no
mistakes (src/app.js line 758, src/unnamed/part_000 line 315). -/
def MINIMUM_DAYS_PER_LEVEL : ℚ := 342 / 100

/-- Average extra hours added per incorrect answer (src/app.js line 759):
the mean SRS interval (4 + 8 + 23 + 47) / 4 = 20.5 hours. -/
def AVG_EXTRA_HOURS_PER_MISTAKE : ℚ := 41 / 2

/-- The result record of the combined-saving computeSpeedup variant
(src/app.js lines 805-850). -/
structure SpeedupCombined where
  windowLostPerLevel : ℚ
  windowSavingTotal : ℚ
  mistakeDaysLostPerLevel : ℚ
  mistakeSavingTotal : ℚ
  combinedSaving : ℚ
  overallAcc : ℚ
  totalWrong : ℕ
  totalAnswers : ℕ
  leechCount : ℕ
deriving DecidableEq

/-- The accumulator of the for loop over review statistics in the
combined-saving computeSpeedup: the four counters, the accumulated extra
hours, and the leech count. -/
structure SpeedupAcc where
  mi : ℕ
  ri : ℕ
  mc : ℕ
  rc : ℕ
  extraHours : ℚ
  leeches : ℕ
deriving DecidableEq

def speedupStep (acc : SpeedupAcc) (rs : ReviewStat) : SpeedupAcc :=
  let totalWrong := rs.meaningIncorrect + rs.readingIncorrect
  ⟨acc.mi + rs.meaningIncorrect, acc.ri + rs.readingIncorrect,
    acc.mc + rs.meaningCorrect, acc.rc + rs.readingCorrect,
    acc.extraHours + (totalWrong : ℚ) * AVG_EXTRA_HOURS_PER_MISTAKE,
    if 4 ≤ totalWrong then acc.leeches + 1 else acc.leeches⟩

/-- computeSpeedup of the combined-saving variant (src/app.js lines
805-850). The module state it reads (_stats.median, _stats.done.length and
_currentLevel) is passed explicitly; the JS blend factor 0.4 is exactly
2/5. -/
def computeSpeedupCombined (reviewStats : List ReviewStat) (statsMedian : ℚ)
    (statsDoneLength : ℕ) (currentLevel : ℕ) : SpeedupCombined :=
  let left : ℚ := 60 - (currentLevel : ℚ)
  let windowLostPerLevel := max 0 (statsMedian - MINIMUM_DAYS_PER_LEVEL)
  let windowSavingTotal := windowLostPerLevel * left
  let acc := reviewStats.foldl speedupStep ⟨0, 0, 0, 0, 0, 0⟩
  let totalAnswers := acc.mc + acc.rc + acc.mi + acc.ri
  let totalWrong := acc.mi + acc.ri
  let overallAcc : ℚ :=
    if 0 < totalAnswers then ((totalAnswers : ℚ) - (totalWrong : ℚ)) / (totalAnswers : ℚ) * 100
    else 100
  let mistakeDaysLost := acc.extraHours / 24
  let mistakeDaysLostPerLevel :=
    if 0 < statsDoneLength then mistakeDaysLost / (statsDoneLength : ℚ) else 0
  let mistakeSavingTotal := mistakeDaysLostPerLevel * left
  let combinedSaving := max windowSavingTotal mistakeSavingTotal +
    min windowSavingTotal mistakeSavingTotal * (2 / 5)
  ⟨windowLostPerLevel, windowSavingTotal, mistakeDaysLostPerLevel, mistakeSavingTotal,
    combinedSaving, overallAcc, totalWrong, totalAnswers, acc.leeches⟩

theorem blend_factor_eq (w m L : ℚ) (hL : 0 ≤ L) :
    max (w * L) (m * L) + min (w * L) (m * L) * (2 / 5) =
      L * (max w m + min w m * (2 / 5)) := by
  rw [← max_mul_of_nonneg w m hL, ← min_mul_of_nonneg w m hL]
  ring

/-- C8 (amended): whenever the current level is at most the ceiling 60
(so levelsRemaining = 60 - currentLevel is non-negative), combinedSaving
equals levelsRemaining times (max of the two per-level losses plus the
blend factor 2/5 = 0.4 times their min). Without that bound the identity
fails, because the source takes max and min of the already-scaled totals. -/
theorem computeSpeedupCombined_blend (reviewStats : List ReviewStat) (statsMedian : ℚ)
    (statsDoneLength : ℕ) (currentLevel : ℕ) (hlvl : currentLevel ≤ 60) :
    (computeSpeedupCombined reviewStats statsMedian statsDoneLength
        currentLevel).combinedSaving =
      (60 - (currentLevel : ℚ)) *
        (max (computeSpeedupCombined reviewStats statsMedian statsDoneLength
            currentLevel).windowLostPerLevel
          (computeSpeedupCombined reviewStats statsMedian statsDoneLength
            currentLevel).mistakeDaysLostPerLevel +
         min (computeSpeedupCombined reviewStats statsMedian statsDoneLength
            currentLevel).windowLostPerLevel
          (computeSpeedupCombined reviewStats statsMedian statsDoneLength
            currentLevel).mistakeDaysLostPerLevel * (2 / 5)) := by
  have hleft : (0 : ℚ) ≤ 60 - (currentLevel : ℚ) := by
    have : (currentLevel : ℚ) ≤ 60 := by exact_mod_cast hlvl
    linarith
  simp only [computeSpeedupCombined]
  exact blend_factor_eq _ _ _ hleft

/-- Witness for C8 (amended) at level 32, median 14, two completed
levels and one review record. -/
theorem computeSpeedupCombined_blend_witness :
    (computeSpeedupCombined [⟨10, 1, 10, 1⟩] 14 2 32).combinedSaving =
      (60 - (32 : ℚ)) *
        (max (computeSpeedupCombined [⟨10, 1, 10, 1⟩] 14 2 32).windowLostPerLevel
          (computeSpeedupCombined [⟨10, 1, 10, 1⟩] 14 2 32).mistakeDaysLostPerLevel +
         min (computeSpeedupCombined [⟨10, 1, 10, 1⟩] 14 2 32).windowLostPerLevel
          (computeSpeedupCombined [⟨10, 1, 10, 1⟩] 14 2 32).mistakeDaysLostPerLevel *
           (2 / 5)) :=
  computeSpeedupCombined_blend [⟨10, 1, 10, 1⟩] 14 2 32 (by decide)

/-- C8 (counterexample): at current level 61 (levelsRemaining = -1) with
median 1342/100 (windowLostPerLevel = 10) and no review records
(mistakeDaysLostPerLevel = 0), the source computes
max(-10, 0) + min(-10, 0) * 0.4 = -4, while the claimed formula gives
-1 * (10 + 0 * 0.4) = -10. -/
theorem computeSpeedupCombined_blend_cex :
    (computeSpeedupCombined [] (1342 / 100) 2 61).combinedSaving = -4 ∧
      (60 - (61 : ℚ)) *
        (max (computeSpeedupCombined [] (1342 / 100) 2 61).windowLostPerLevel
          (computeSpeedupCombined [] (1342 / 100) 2 61).mistakeDaysLostPerLevel +
         min (computeSpeedupCombined [] (1342 / 100) 2 61).windowLostPerLevel
          (computeSpeedupCombined [] (1342 / 100) 2 61).mistakeDaysLostPerLevel *
           (2 / 5)) = -10 ∧
      ((-4 : ℚ) ≠ -10) := by
  refine ⟨?_, ?_, by norm_num⟩ <;>
    norm_num [computeSpeedupCombined, speedupStep, MINIMUM_DAYS_PER_LEVEL,
      AVG_EXTRA_HOURS_PER_MISTAKE, max_def, min_def]

/-! ### Level-completion forecast (src/app.js lines 10, 622-636) -/

/-- addDays (src/app.js line 10): advance an instant by a (fractional)
number of days, in milliseconds. -/
def addDays (d : ℚ) (n : ℚ) : ℚ := d + n * 86400000

/-- The prediction of updatePrediction (src/app.js lines 622-636): the
forecast instant under a pace of paceDays days per level, with
left = 60 - currentLevel levels remaining (computed in ℚ, without any
clamping, exactly as the source). -/
def predForecast (now : ℚ) (currentLevel : ℕ) (paceDays : ℚ) : ℚ :=
  addDays now ((60 - (currentLevel : ℚ)) * paceDays)

/-- C9 (amended): the forecast equals the current instant plus
(60 - currentLevel) x paceDays days; at exactly the ceiling level 60 it
equals the current instant; but levelsRemaining is never clamped, so
above level 60 the forecast lies strictly before the current instant for
any positive pace. -/
theorem predForecast_spec (now : ℚ) (currentLevel : ℕ) (paceDays : ℚ) :
    predForecast now currentLevel paceDays =
        now + (60 - (currentLevel : ℚ)) * paceDays * 86400000 ∧
      (currentLevel = 60 → predForecast now currentLevel paceDays = now) ∧
      (60 < currentLevel → 0 < paceDays →
        predForecast now currentLevel paceDays < now) := by
  refine ⟨rfl, ?_, ?_⟩
  · intro h
    subst h
    norm_num [predForecast, addDays]
  · intro hlvl hpace
    have h61 : (61 : ℚ) ≤ (currentLevel : ℚ) := by exact_mod_cast hlvl
    have hneg : (60 - (currentLevel : ℚ)) * paceDays < 0 :=
      mul_neg_of_neg_of_pos (by linarith) hpace
    simp only [predForecast, addDays]
    nlinarith

/-- Witness for C9 (amended): at level 60 the forecast equals now; at
level 61 with pace 1 it lies strictly before now. -/
theorem predForecast_spec_witness :
    predForecast 5 60 3 = 5 ∧ predForecast 0 61 1 < 0 :=
  ⟨(predForecast_spec 5 60 3).2.1 rfl,
    (predForecast_spec 0 61 1).2.2 (by decide) (by decide)⟩

/-- C9 (counterexample): at current level 61 (above the ceiling) with
pace 1 day per level, the forecast from instant 0 is -86400000 ms — one
day in the past — not 0 as the claimed clamping would give. -/
theorem predForecast_not_clamped :
    predForecast 0 61 1 = -86400000 ∧ predForecast 0 61 1 ≠ 0 := by
  constructor <;> norm_num [predForecast, addDays]

/-! ### Speedup purity (src/app.js lines 207-227, src/unnamed/part_000
lines 364-401) -/

/-- The result record of the accuracy-lever computeSpeedup variant
(src/unnamed/part_000 lines 364-401). -/
structure Speedup where
  accuracy : ℚ
  total : ℕ
  incorrect : ℕ
  extraDaysPerLevel : ℚ
  windowLostPerLevel : ℚ
  realisticBestDays : ℚ
deriving DecidableEq

/-- The correct/incorrect accumulation of the for loop over review
statistics. -/
def accuracyStep (acc : ℕ × ℕ) (rs : ReviewStat) : ℕ × ℕ :=
  (acc.1 + rs.meaningCorrect + rs.readingCorrect,
    acc.2 + rs.meaningIncorrect + rs.readingIncorrect)

/-- computeSpeedup of the accuracy-lever variant (src/unnamed/part_000
lines 364-401). The source reads the module-level _stats.median; that
hidden state is the explicit first parameter here. The constants: average
interval 20.5h = 41/2, 100 estimated reviews per level, sleep buffer
0.5 day. -/
def computeSpeedup (statsMedian : ℚ) (reviewStats : List ReviewStat) : Speedup :=
  let cw := reviewStats.foldl accuracyStep (0, 0)
  let correct := cw.1
  let incorrect := cw.2
  let total := correct + incorrect
  let accuracy : ℚ := if 0 < total then (correct : ℚ) / (total : ℚ) * 100 else 100
  let avgIntervalHours : ℚ := 41 / 2
  let estReviewsPerLevel : ℚ := 100
  let incorrectRate : ℚ := if 0 < total then (incorrect : ℚ) / (total : ℚ) else 0
  let extraHoursPerLevel := incorrectRate * estReviewsPerLevel * avgIntervalHours
  let extraDaysPerLevel := extraHoursPerLevel / 24
  let windowLostPerLevel := max 0 (statsMedian - MINIMUM_DAYS_PER_LEVEL)
  let sleepBufferDays : ℚ := 1 / 2
  let realisticBestDays := MINIMUM_DAYS_PER_LEVEL + sleepBufferDays
  ⟨accuracy, total, incorrect, extraDaysPerLevel, windowLostPerLevel, realisticBestDays⟩

/-- C10 (amended): computeSpeedup is a pure function of its review
statistics and the module-level median it reads: the review-derived
components (accuracy, total, incorrect, extraDaysPerLevel and the
constant realisticBestDays) depend on the review statistics alone, for
any two values of the hidden median, while windowLostPerLevel is
determined by the hidden median. -/
theorem computeSpeedup_pure_given_median (m1 m2 : ℚ) (reviewStats : List ReviewStat) :
    (computeSpeedup m1 reviewStats).accuracy = (computeSpeedup m2 reviewStats).accuracy ∧
      (computeSpeedup m1 reviewStats).total = (computeSpeedup m2 reviewStats).total ∧
      (computeSpeedup m1 reviewStats).incorrect =
        (computeSpeedup m2 reviewStats).incorrect ∧
      (computeSpeedup m1 reviewStats).extraDaysPerLevel =
        (computeSpeedup m2 reviewStats).extraDaysPerLevel ∧
      (computeSpeedup m1 reviewStats).realisticBestDays =
        (computeSpeedup m2 reviewStats).realisticBestDays ∧
      (computeSpeedup m1 reviewStats).windowLostPerLevel =
        max 0 (m1 - MINIMUM_DAYS_PER_LEVEL) :=
  ⟨rfl, rfl, rfl, rfl, rfl, rfl⟩

/-- C10 (counterexample): two invocations of computeSpeedup on the same
review statistics but under different module-level median state return
different results (windowLostPerLevel 10 - 3.42 = 329/50 versus
20 - 3.42 = 829/50), so computeSpeedup is not a pure function of its
review-statistics input alone. -/
theorem computeSpeedup_not_pure :
    (computeSpeedup 10 [⟨1, 0, 1, 0⟩]).windowLostPerLevel = 329 / 50 ∧
      (computeSpeedup 20 [⟨1, 0, 1, 0⟩]).windowLostPerLevel = 829 / 50 ∧
      computeSpeedup 10 [⟨1, 0, 1, 0⟩] ≠ computeSpeedup 20 [⟨1, 0, 1, 0⟩] := by
  have h1 : (computeSpeedup 10 [⟨1, 0, 1, 0⟩]).windowLostPerLevel = 329 / 50 := by
    norm_num [computeSpeedup, MINIMUM_DAYS_PER_LEVEL, max_def]
  have h2 : (computeSpeedup 20 [⟨1, 0, 1, 0⟩]).windowLostPerLevel = 829 / 50 := by
    norm_num [computeSpeedup, MINIMUM_DAYS_PER_LEVEL, max_def]
  refine ⟨h1, h2, fun h => ?_⟩
  rw [congrArg Speedup.windowLostPerLevel h, h2] at h1
  norm_num at h1

end WK
